/-
Verification of the asynchronous task-processing and resilience layer of the
scraper backend: the priority task queue with retry/backoff (app/queue_manager.py),
the TTL/LRU response cache (app/cache_manager.py), and the proxy-failover request
executor with bot detection (app/anti_bot.py).

Each definition is a shallow embedding of the corresponding Python function;
machine time values are embedded as `Int` seconds, opaque payloads as `Nat`.
-/

import Mathlib

set_option maxRecDepth 4000

namespace QueueModel

/-- `TaskStatus` from app/queue_manager.py. -/
inductive TaskStatus where
  | pending
  | processing
  | completed
  | failed
  | retrying
deriving DecidableEq, BEq, Repr

/-- The per-task state relevant to the queue-manager state machine, together
with the queue-manager bookkeeping that concerns this one task:
whether its id is in `self.queue`, whether it is in `self.processing`,
and how many `threading.Timer` retry callbacks are pending for it.
Optional float fields (`started_at`, `completed_at`) are embedded as
presence flags, `result` as a presence flag. -/
structure TaskState where
  status : TaskStatus
  retry_count : Nat
  max_retries : Nat
  error_message : Option String
  has_result : Bool
  has_completed_at : Bool
  has_started_at : Bool
  inQueue : Bool
  inProcessing : Bool
  timers : Nat
deriving DecidableEq, Repr

/-- A task as created by `QueueManager.add_task`: status PENDING, retry_count 0,
inserted into the queue. -/
def initTask (m : Nat) : TaskState :=
  { status := .pending
    retry_count := 0
    max_retries := m
    error_message := none
    has_result := false
    has_completed_at := false
    has_started_at := true
    inQueue := true
    inProcessing := false
    timers := 0 }

/-- `QueueManager._handle_task_failure`: increments `retry_count`; if still below
`max_retries` the task goes to RETRYING and a one-shot timer is started with
delay `min(60, 2 ** task.retry_count)` (returned as the second component);
otherwise the task goes to FAILED and `completed_at` is set. -/
def handleTaskFailure (s : TaskState) : TaskState × Option Nat :=
  let rc := s.retry_count + 1
  if rc < s.max_retries then
    ({ s with
        retry_count := rc
        status := .retrying
        error_message := some ("Tentativa " ++ toString rc ++ " falhou")
        timers := s.timers + 1 },
     some (min 60 (2 ^ rc)))
  else
    ({ s with
        retry_count := rc
        status := .failed
        has_completed_at := true },
     none)

/-- The externally observable queue operations acting on one task:
`dispatch` is `_get_next_task` popping this task (it is then processed),
`finish b` is the completion of `_process_task` with scraping success `b`
(success branch, or failure branch calling `_handle_task_failure`, then the
`finally` block removing the id from `self.processing`),
`timerFire` is the `_retry_task` timer callback, and
`cancel` is `cancel_task`. -/
inductive QEvent where
  | dispatch
  | finish (success : Bool)
  | timerFire
  | cancel
deriving DecidableEq, Repr

/-- One step of the queue-manager state machine, translated from
app/queue_manager.py.  An event whose guard does not hold (e.g. `dispatch`
when the task is not queued) leaves the state unchanged. -/
def qstep (s : TaskState) (e : QEvent) : TaskState :=
  match e with
  | .dispatch =>
    if s.inQueue then
      { s with
          inQueue := false
          inProcessing := true
          status := .processing
          has_started_at := true }
    else s
  | .finish success =>
    if s.inProcessing then
      if success then
        { s with
            status := .completed
            has_completed_at := true
            has_result := true
            inProcessing := false }
      else
        { (handleTaskFailure s).1 with inProcessing := false }
    else s
  | .timerFire =>
    if 0 < s.timers then
      { s with
          timers := s.timers - 1
          status := .pending
          has_started_at := false
          inQueue := true }
    else s
  | .cancel =>
    if s.status = .pending ∨ s.status = .retrying then
      { s with
          status := .failed
          error_message := some "Cancelada pelo usuario"
          inQueue := false }
    else s

/-- Run a sequence of queue operations. -/
def runQ (s : TaskState) (es : List QEvent) : TaskState :=
  es.foldl qstep s

/-- The sequence of statuses a task passes through under a sequence of
operations (including the initial status). -/
def statusTrace (m : Nat) (es : List QEvent) : List TaskStatus :=
  (es.scanl qstep (initTask m)).map TaskState.status

/-- Number of pending dispatch opportunities for the task: queued + in
processing + pending retry timers. -/
def activity (s : TaskState) : Nat :=
  (if s.inQueue then 1 else 0) + (if s.inProcessing then 1 else 0) + s.timers

/-- A queued task as seen by `_insert_into_queue`: its priority and its
insertion sequence number (position in the `add_task` call order; task ids are
unique, so the sequence number stands for the id). -/
structure QTask where
  priority : Int
  seq : Nat
deriving DecidableEq, Repr

/-- The loop of `QueueManager._insert_into_queue` computing `insert_pos` over
the priorities of the queued tasks: the index of the first queued task whose
priority is strictly below the new task's, or the queue length if none. -/
def insertPos (p : Int) : List Int → Nat
  | [] => 0
  | q :: rest => if p > q then 0 else insertPos p rest + 1

/-- Python `list.insert(pos, a)`: inserts before index `pos`, appending when
`pos` is past the end. -/
def listInsert : Nat → QTask → List QTask → List QTask
  | _, a, [] => [a]
  | 0, a, l => a :: l
  | n + 1, a, x :: l => x :: listInsert n a l

/-- `QueueManager._insert_into_queue`: insert the task at the position
computed by the priority scan. -/
def insertIntoQueue (t : QTask) (queue : List QTask) : List QTask :=
  listInsert (insertPos t.priority (queue.map QTask.priority)) t queue

/-- `QueueManager._get_next_task`: `None` on an empty queue, otherwise pops
the first task. -/
def getNextTask : List QTask → Option (QTask × List QTask)
  | [] => none
  | t :: rest => some (t, rest)

/-- Dequeue via `_get_next_task` at most `fuel` times, collecting the
dequeued tasks in order. -/
def drainAux : Nat → List QTask → List QTask
  | 0, _ => []
  | fuel + 1, q =>
    match getNextTask q with
    | none => []
    | some (t, rest) => t :: drainAux fuel rest

/-- Repeatedly dequeue via `_get_next_task` until the queue is empty,
collecting the dequeued tasks in order (the queue length bounds the number of
dequeues needed). -/
def drainQueue (q : List QTask) : List QTask :=
  drainAux q.length q

/-- A sequence of `add_task` calls, each inserting via `_insert_into_queue`
into an initially empty queue. -/
def enqueueAll (ts : List QTask) : List QTask :=
  ts.foldl (fun acc t => insertIntoQueue t acc) []

/-- Inductive invariant of the queue list: along the queue, priorities are
strictly decreasing or, on ties, sequence numbers strictly increase. -/
def queueOrdered (l : List QTask) : Prop :=
  l.Pairwise (fun a b => b.priority < a.priority ∨
    (a.priority = b.priority ∧ a.seq < b.seq))

/-- Inductive invariant of the queue-manager state machine. -/
def QInv (s : TaskState) : Prop :=
  activity s ≤ 1 ∧
  s.retry_count ≤ max 1 s.max_retries ∧
  (s.inQueue = true →
    s.status = .pending ∧ s.retry_count < max 1 s.max_retries ∧
    s.timers = 0 ∧ s.inProcessing = false) ∧
  (s.inProcessing = true →
    s.status = .processing ∧ s.retry_count < max 1 s.max_retries ∧
    s.timers = 0 ∧ s.inQueue = false) ∧
  (0 < s.timers →
    s.retry_count < s.max_retries ∧
    (s.status = .retrying ∨ s.status = .failed) ∧
    s.inQueue = false ∧ s.inProcessing = false)

/-- A task is terminal when COMPLETED or FAILED. -/
def isTerminal (s : TaskState) : Prop :=
  s.status = .completed ∨ s.status = .failed

end QueueModel

namespace QueueModel

theorem qinv_init (m : Nat) : QInv (initTask m) := by
  refine ⟨?_, ?_, ?_, ?_, ?_⟩ <;>
    simp [initTask, activity, QInv, Nat.lt_of_lt_of_le Nat.zero_lt_one (Nat.le_max_left 1 m)]

theorem qinv_step (s : TaskState) (e : QEvent) (hs : QInv s) : QInv (qstep s e) := by
  obtain ⟨h1, h2, h3, h4, h5⟩ := hs
  cases e with
  | dispatch =>
    by_cases hq : s.inQueue = true
    · obtain ⟨hst, hrc, ht, hp⟩ := h3 hq
      simp only [qstep, hq, if_true]
      refine ⟨?_, ?_, ?_, ?_, ?_⟩ <;>
        simp_all [activity]
    · simp only [qstep]
      rw [if_neg (by simpa using hq)]
      exact ⟨h1, h2, h3, h4, h5⟩
  | finish success =>
    by_cases hp : s.inProcessing = true
    · obtain ⟨hst, hrc, ht, hq⟩ := h4 hp
      cases success with
      | true =>
        simp only [qstep, hp, if_true]
        refine ⟨?_, ?_, ?_, ?_, ?_⟩ <;>
          simp_all [activity] <;> omega
      | false =>
        simp only [qstep, hp, if_true, Bool.false_eq_true, if_false, handleTaskFailure]
        by_cases hretry : s.retry_count + 1 < s.max_retries
        · rw [if_pos hretry]
          refine ⟨?_, ?_, ?_, ?_, ?_⟩ <;>
            simp_all [activity] <;> omega
        · rw [if_neg hretry]
          refine ⟨?_, ?_, ?_, ?_, ?_⟩ <;>
            simp_all [activity] <;> omega
    · simp only [qstep]
      rw [if_neg (by simpa using hp)]
      exact ⟨h1, h2, h3, h4, h5⟩
  | timerFire =>
    by_cases htm : 0 < s.timers
    · obtain ⟨hrc, hst, hq, hp⟩ := h5 htm
      simp only [qstep, htm, if_true]
      have htimers : s.timers = 1 := by
        simp [activity, hq, hp] at h1; omega
      refine ⟨?_, ?_, ?_, ?_, ?_⟩ <;>
        simp_all [activity] <;> omega
    · simp only [qstep]
      rw [if_neg htm]
      exact ⟨h1, h2, h3, h4, h5⟩
  | cancel =>
    by_cases hst : s.status = .pending ∨ s.status = .retrying
    · have hp : s.inProcessing = false := by
        rcases hst with h | h <;>
          [skip; skip] <;>
        · cases hpp : s.inProcessing with
          | false => rfl
          | true => exact absurd ((h4 hpp).1) (by simp [h])
      simp only [qstep, hst, if_true]
      refine ⟨?_, ?_, ?_, ?_, ?_⟩ <;>
        simp_all [activity] <;> omega
    · simp only [qstep]
      rw [if_neg hst]
      exact ⟨h1, h2, h3, h4, h5⟩

theorem qinv_run (m : Nat) (es : List QEvent) : QInv (runQ (initTask m) es) := by
  suffices h : ∀ (es : List QEvent) (s : TaskState), QInv s → QInv (runQ s es) from
    h es (initTask m) (qinv_init m)
  intro es
  induction es with
  | nil => intro s hs; exact hs
  | cons e rest ih =>
    intro s hs
    exact ih (qstep s e) (qinv_step s e hs)

theorem max_retries_qstep (s : TaskState) (e : QEvent) :
    (qstep s e).max_retries = s.max_retries := by
  cases e with
  | dispatch => simp only [qstep]; split <;> rfl
  | finish success =>
    simp only [qstep, handleTaskFailure]
    split
    · split <;> [rfl; (split <;> rfl)]
    · rfl
  | timerFire => simp only [qstep]; split <;> rfl
  | cancel => simp only [qstep]; split <;> rfl

theorem max_retries_runQ (s : TaskState) (es : List QEvent) :
    (runQ s es).max_retries = s.max_retries := by
  induction es generalizing s with
  | nil => rfl
  | cons e rest ih =>
    show (runQ (qstep s e) rest).max_retries = s.max_retries
    rw [ih (qstep s e), max_retries_qstep]

/-- A terminal task with no pending retry timer is frozen: every queue
operation leaves it unchanged. -/
theorem qstep_frozen (s : TaskState) (e : QEvent)
    (hs : QInv s) (hterm : isTerminal s) (ht : s.timers = 0) :
    qstep s e = s := by
  obtain ⟨h1, h2, h3, h4, h5⟩ := hs
  have hq : s.inQueue = false := by
    cases hqq : s.inQueue with
    | false => rfl
    | true =>
      rcases hterm with h | h <;>
        exact absurd ((h3 hqq).1) (by simp [h])
  have hp : s.inProcessing = false := by
    cases hpp : s.inProcessing with
    | false => rfl
    | true =>
      rcases hterm with h | h <;>
        exact absurd ((h4 hpp).1) (by simp [h])
  have hstatus : ¬ (s.status = .pending ∨ s.status = .retrying) := by
    rcases hterm with h | h <;> simp [h]
  cases e with
  | dispatch => simp [qstep, hq]
  | finish success => simp [qstep, hp]
  | timerFire => simp [qstep, ht]
  | cancel => simp [qstep, hstatus]

/-- C1 (amended): for every task (any `max_retries` value `m`) and every
sequence of queue operations, `retry_count` never exceeds `max 1 m` (so it
never exceeds `max_retries` whenever `max_retries ≥ 1`); and once the task is
COMPLETED or FAILED with no retry timer pending, no subsequent sequence of
queue operations changes any of its fields. -/
theorem c1_retry_bound_and_terminal_frozen (m : Nat) (es : List QEvent) :
    (runQ (initTask m) es).retry_count ≤ max 1 m ∧
    (isTerminal (runQ (initTask m) es) → (runQ (initTask m) es).timers = 0 →
      ∀ es2, runQ (runQ (initTask m) es) es2 = runQ (initTask m) es) := by
  have hinv := qinv_run m es
  have hm : (runQ (initTask m) es).max_retries = m := by
    rw [max_retries_runQ]; rfl
  constructor
  · have h2 := hinv.2.1
    rwa [hm] at h2
  · intro hterm ht es2
    induction es2 with
    | nil => rfl
    | cons e rest ih =>
      show runQ (qstep (runQ (initTask m) es) e) rest = runQ (initTask m) es
      rw [qstep_frozen _ _ hinv hterm ht]
      exact ih

/-- C1 counterexample: (i) a task with `max_retries = 0` reaches
`retry_count = 1 > 0 = max_retries` after its first failure, refuting
"retry_count never exceeds max_retries"; (ii) a task cancelled while RETRYING
is FAILED, yet the already-scheduled retry timer later fires and moves it back
to PENDING, refuting "once FAILED no subsequent operation changes its fields". -/
theorem c1_counterexample :
    ((runQ (initTask 0) [.dispatch, .finish false]).max_retries <
      (runQ (initTask 0) [.dispatch, .finish false]).retry_count) ∧
    ((runQ (initTask 3) [.dispatch, .finish false, .cancel]).status = .failed ∧
      (runQ (initTask 3) [.dispatch, .finish false, .cancel, .timerFire]).status
        = .pending) := by
  refine ⟨by decide, by decide, by decide⟩

theorem c1_witness :
    isTerminal (runQ (initTask 2)
      [.dispatch, .finish false, .timerFire, .dispatch, .finish false]) ∧
    (runQ (initTask 2)
      [.dispatch, .finish false, .timerFire, .dispatch, .finish false]).timers = 0 ∧
    runQ (runQ (initTask 2)
      [.dispatch, .finish false, .timerFire, .dispatch, .finish false])
      [.cancel, .timerFire, .dispatch]
      = runQ (initTask 2)
          [.dispatch, .finish false, .timerFire, .dispatch, .finish false] :=
  ⟨Or.inr (by decide), by decide,
    (c1_retry_bound_and_terminal_frozen 2
      [.dispatch, .finish false, .timerFire, .dispatch, .finish false]).2
      (Or.inr (by decide)) (by decide) [.cancel, .timerFire, .dispatch]⟩

/-- C6 counterexample: with `max_retries = 2` and a job that always fails,
the status trace of the canonical schedule (worker dispatches whenever the
task is queued, each execution fails, each retry timer fires) contains the
RETRYING status exactly once, not twice: the second failure goes directly
from PROCESSING to FAILED because `_handle_task_failure` compares the
already-incremented `retry_count` (2) against `max_retries` (2). -/
theorem c6_counterexample :
    (statusTrace 2 [.dispatch, .finish false, .timerFire, .dispatch, .finish false]).count
        .retrying = 1 ∧
    (runQ (initTask 2)
        [.dispatch, .finish false, .timerFire, .dispatch, .finish false]).retry_count
      = 2 := by
  refine ⟨by decide, by decide⟩

/-- C6 (amended): with `max_retries = 2` and a job execution that always
fails, the task passes through PENDING → PROCESSING → RETRYING once, then
PENDING → PROCESSING → FAILED, ending FAILED with `retry_count` exactly 2. -/
theorem c6_always_failing_trace :
    statusTrace 2 [.dispatch, .finish false, .timerFire, .dispatch, .finish false]
      = [.pending, .processing, .retrying, .pending, .processing, .failed] ∧
    (runQ (initTask 2)
        [.dispatch, .finish false, .timerFire, .dispatch, .finish false]).retry_count
      = 2 ∧
    (runQ (initTask 2)
        [.dispatch, .finish false, .timerFire, .dispatch, .finish false]).status
      = .failed := by
  refine ⟨by decide, by decide, by decide⟩

/-- C7: whenever a failure leads to a retry (the incremented `retry_count` is
still below `max_retries`), `_handle_task_failure` schedules the retry timer
with delay `min 60 (2 ^ retry_count)` seconds computed from the
already-incremented `retry_count`; in particular the 3rd retry is scheduled
after 8 seconds and the 7th after 60 seconds (the cap). -/
theorem c7_backoff_delay (s : TaskState) (h : s.retry_count + 1 < s.max_retries) :
    (handleTaskFailure s).2 = some (min 60 (2 ^ (s.retry_count + 1))) ∧
    (s.retry_count + 1 = 3 → (handleTaskFailure s).2 = some 8) ∧
    (s.retry_count + 1 = 7 → (handleTaskFailure s).2 = some 60) := by
  refine ⟨?_, ?_, ?_⟩
  · simp [handleTaskFailure, h]
  · intro h3
    simp only [handleTaskFailure, h3]
    rw [if_pos (show 3 < s.max_retries by omega)]
    norm_num
  · intro h7
    simp only [handleTaskFailure, h7]
    rw [if_pos (show 7 < s.max_retries by omega)]
    norm_num

theorem c7_witness :
    (handleTaskFailure
        ⟨.processing, 2, 10, none, false, false, true, false, true, 0⟩).2 = some 8 ∧
    (handleTaskFailure
        ⟨.processing, 6, 10, none, false, false, true, false, true, 0⟩).2 = some 60 :=
  ⟨(c7_backoff_delay ⟨.processing, 2, 10, none, false, false, true, false, true, 0⟩
      (by decide)).2.1 rfl,
    (c7_backoff_delay ⟨.processing, 6, 10, none, false, false, true, false, true, 0⟩
      (by decide)).2.2 rfl⟩

theorem insertIntoQueue_nil (t : QTask) : insertIntoQueue t [] = [t] := rfl

theorem insertIntoQueue_cons (t x : QTask) (l : List QTask) :
    insertIntoQueue t (x :: l) =
      if x.priority < t.priority then t :: x :: l else x :: insertIntoQueue t l := by
  by_cases hx : x.priority < t.priority
  · simp [insertIntoQueue, insertPos, hx, listInsert]
  · simp [insertIntoQueue, insertPos, hx, listInsert]

theorem insertIntoQueue_perm (t : QTask) (l : List QTask) :
    List.Perm (insertIntoQueue t l) (t :: l) := by
  induction l with
  | nil => simp [insertIntoQueue_nil]
  | cons x l ih =>
    rw [insertIntoQueue_cons]
    split
    · exact List.Perm.refl _
    · exact (ih.cons x).trans (List.Perm.swap t x l)

theorem mem_insertIntoQueue (t y : QTask) (l : List QTask) :
    y ∈ insertIntoQueue t l ↔ y = t ∨ y ∈ l := by
  rw [(insertIntoQueue_perm t l).mem_iff]
  simp

theorem queueOrdered_insert (t : QTask) (l : List QTask)
    (hl : queueOrdered l) (hseq : ∀ x ∈ l, x.seq < t.seq) :
    queueOrdered (insertIntoQueue t l) := by
  induction l with
  | nil => simp [insertIntoQueue_nil, queueOrdered]
  | cons x l ih =>
    rw [insertIntoQueue_cons]
    rw [queueOrdered, List.pairwise_cons] at hl
    obtain ⟨hx, hl2⟩ := hl
    split
    · rename_i hxt
      refine List.Pairwise.cons ?_ (List.Pairwise.cons hx hl2)
      intro y hy
      rcases List.mem_cons.mp hy with rfl | hy
      · exact Or.inl hxt
      · rcases hx y hy with h | h
        · exact Or.inl (h.trans hxt)
        · exact Or.inl (h.1 ▸ hxt)
    · rename_i hxt
      push_neg at hxt
      refine List.Pairwise.cons ?_
        (ih hl2 (fun z hz => hseq z (List.mem_cons_of_mem x hz)))
      intro y hy
      rcases (mem_insertIntoQueue t y l).mp hy with rfl | hy
      · rcases lt_or_eq_of_le hxt with h | h
        · exact Or.inl h
        · exact Or.inr ⟨h.symm, hseq x (List.mem_cons_self x l)⟩
      · exact hx y hy

theorem enqueueAll_invariant (ts : List QTask) (acc : List QTask)
    (hacc : queueOrdered acc)
    (hsep : ∀ x ∈ acc, ∀ u ∈ ts, x.seq < u.seq)
    (hts : ts.Pairwise (fun a b => a.seq < b.seq)) :
    queueOrdered (ts.foldl (fun a t => insertIntoQueue t a) acc) ∧
    List.Perm (ts.foldl (fun a t => insertIntoQueue t a) acc) (acc ++ ts) := by
  induction ts generalizing acc with
  | nil =>
    refine ⟨hacc, ?_⟩
    simpa using List.Perm.refl acc
  | cons t ts ih =>
    rw [List.pairwise_cons] at hts
    obtain ⟨ht, hts2⟩ := hts
    have hacc2 : queueOrdered (insertIntoQueue t acc) :=
      queueOrdered_insert t acc hacc
        (fun x hx => hsep x hx t (List.mem_cons_self t ts))
    have hsep2 : ∀ x ∈ insertIntoQueue t acc, ∀ u ∈ ts, x.seq < u.seq := by
      intro x hx u hu
      rcases (mem_insertIntoQueue t x acc).mp hx with rfl | hx
      · exact ht u hu
      · exact hsep x hx u (List.mem_cons_of_mem t hu)
    obtain ⟨h1, h2⟩ := ih (insertIntoQueue t acc) hacc2 hsep2 hts2
    refine ⟨h1, ?_⟩
    have hstep : List.Perm (insertIntoQueue t acc ++ ts) ((t :: acc) ++ ts) :=
      (insertIntoQueue_perm t acc).append_right ts
    exact h2.trans (hstep.trans List.perm_middle.symm)

theorem drainQueue_eq (q : List QTask) : drainQueue q = q := by
  suffices h : ∀ (n : Nat) (l : List QTask), l.length = n → drainAux n l = l from
    h q.length q rfl
  intro n
  induction n with
  | zero =>
    intro l hl
    rw [List.length_eq_zero] at hl
    simp [hl, drainAux]
  | succ k ih =>
    intro l hl
    cases l with
    | nil => simp at hl
    | cons t rest =>
      simp only [List.length_cons, Nat.succ.injEq] at hl
      simp [drainAux, getNextTask, ih rest hl]

theorem insertIntoQueue_takeWhile (t : QTask) (l : List QTask) :
    insertIntoQueue t l =
      l.takeWhile (fun x => decide (t.priority ≤ x.priority)) ++
        t :: l.dropWhile (fun x => decide (t.priority ≤ x.priority)) := by
  induction l with
  | nil => simp [insertIntoQueue_nil]
  | cons x l ih =>
    rw [insertIntoQueue_cons]
    by_cases hx : x.priority < t.priority
    · rw [if_pos hx]
      have hd : (decide (t.priority ≤ x.priority)) = false := by
        simp [not_le.mpr hx]
      simp [List.takeWhile_cons, List.dropWhile_cons, hd]
    · rw [if_neg hx]
      have hd : (decide (t.priority ≤ x.priority)) = true := by
        simp [not_lt.mp hx]
      simp [List.takeWhile_cons, List.dropWhile_cons, hd, ih]

/-- C2: for every sequence of `add_task` insertions (tasks tagged with their
insertion sequence number) followed by a full drain via `_get_next_task` with
no interleaved mutation: the dequeued priorities are non-increasing, any two
equal-priority tasks come out in insertion order (FIFO tie-break), every
inserted task is dequeued exactly once, and each `_insert_into_queue` places
the new task immediately before the first queued task of strictly lower
priority (at the end if none exists). -/
theorem c2_priority_fifo (ts : List QTask)
    (hseq : ts.Pairwise (fun a b => a.seq < b.seq)) :
    (drainQueue (enqueueAll ts)).Pairwise (fun a b => b.priority ≤ a.priority) ∧
    (drainQueue (enqueueAll ts)).Pairwise
      (fun a b => a.priority = b.priority → a.seq < b.seq) ∧
    List.Perm (drainQueue (enqueueAll ts)) ts ∧
    (∀ (t : QTask) (l : List QTask),
      insertIntoQueue t l =
        l.takeWhile (fun x => decide (t.priority ≤ x.priority)) ++
          t :: l.dropWhile (fun x => decide (t.priority ≤ x.priority))) := by
  obtain ⟨hord, hperm⟩ :=
    enqueueAll_invariant ts [] (by simp [queueOrdered]) (by simp) hseq
  rw [drainQueue_eq]
  refine ⟨?_, ?_, ?_, ?_⟩
  · refine hord.imp ?_
    intro a b h
    rcases h with h | h
    · exact le_of_lt h
    · exact le_of_eq h.1.symm
  · refine hord.imp ?_
    intro a b h
    rcases h with h | h
    · intro heq
      exact absurd (heq ▸ h) (lt_irrefl _)
    · intro _
      exact h.2
  · simpa using hperm
  · exact insertIntoQueue_takeWhile

theorem c2_witness :
    (drainQueue (enqueueAll [⟨1, 0⟩, ⟨5, 1⟩, ⟨1, 2⟩])).Pairwise
      (fun a b => b.priority ≤ a.priority) ∧
    List.Perm (drainQueue (enqueueAll [⟨1, 0⟩, ⟨5, 1⟩, ⟨1, 2⟩])) [⟨1, 0⟩, ⟨5, 1⟩, ⟨1, 2⟩] := by
  have hpw : ([⟨1, 0⟩, ⟨5, 1⟩, ⟨1, 2⟩] : List QTask).Pairwise
      (fun a b => a.seq < b.seq) := by
    decide
  obtain ⟨h1, _, h3, _⟩ := c2_priority_fifo [⟨1, 0⟩, ⟨5, 1⟩, ⟨1, 2⟩] hpw
  exact ⟨h1, h3⟩

end QueueModel

namespace CacheModel

/-- `CacheEntry` from app/cache_manager.py; the opaque payload is embedded as
`Nat`, time values and TTLs as `Int` seconds. -/
structure CacheEntry where
  data : Nat
  timestamp : Int
  ttl : Int
  access_count : Nat
  last_accessed : Int
deriving DecidableEq, Repr

/-- `CacheEntry.is_expired`: `time.time() - self.timestamp > self.ttl`, with
the current time passed explicitly. -/
def CacheEntry.is_expired (e : CacheEntry) (now : Int) : Bool :=
  decide (now - e.timestamp > e.ttl)

/-- The `stats` dictionary of `CacheManager`. -/
structure CacheStats where
  hits : Nat
  misses : Nat
  evictions : Nat
  expired_cleanups : Nat
deriving DecidableEq, Repr

/-- `CacheManager` state: the `cache` dict is embedded as an association list
with (invariantly) unique keys, `access_order` as the LRU recency list. -/
structure CacheManager where
  max_size : Nat
  default_ttl : Int
  cache : List (String × CacheEntry)
  access_order : List String
  stats : CacheStats
deriving DecidableEq, Repr

/-- Keys of the cache dict, in insertion order. -/
def keysOf (c : List (String × CacheEntry)) : List String :=
  c.map Prod.fst

/-- Dict read `self.cache.get(key)` on the association list. -/
def lookupKey (k : String) : List (String × CacheEntry) → Option CacheEntry
  | [] => none
  | (k2, e) :: rest => if k2 = k then some e else lookupKey k rest

/-- Dict removal `del self.cache[key]`: drops the (unique) binding of `k`. -/
def eraseKey (k : String) : List (String × CacheEntry) → List (String × CacheEntry)
  | [] => []
  | (k2, e) :: rest => if k2 = k then rest else (k2, e) :: eraseKey k rest

/-- Dict write `self.cache[key] = entry`: replaces the existing binding in
place, or appends a new one. -/
def setKey (k : String) (e : CacheEntry) :
    List (String × CacheEntry) → List (String × CacheEntry)
  | [] => [(k, e)]
  | (k2, e2) :: rest =>
    if k2 = k then (k2, e) :: rest else (k2, e2) :: setKey k e rest

/-- Python `list.remove` guarded by a membership test (`if key in
self.access_order: self.access_order.remove(key)`): removes the first
occurrence when present. -/
def removeIfPresent (k : String) (l : List String) : List String :=
  if k ∈ l then l.erase k else l

/-- `CacheManager.get`, translated from app/cache_manager.py.  Returns the
cached value (or `None`) together with the updated manager state. -/
def CacheManager.get (c : CacheManager) (key : String) (now : Int) :
    Option Nat × CacheManager :=
  match lookupKey key c.cache with
  | none =>
    (none, { c with stats := { c.stats with misses := c.stats.misses + 1 } })
  | some entry =>
    if entry.is_expired now then
      (none,
       { c with
          cache := eraseKey key c.cache
          access_order := c.access_order.erase key
          stats := { c.stats with
            misses := c.stats.misses + 1
            expired_cleanups := c.stats.expired_cleanups + 1 } })
    else
      (some entry.data,
       { c with
          cache := setKey key
            { entry with access_count := entry.access_count + 1, last_accessed := now }
            c.cache
          access_order := c.access_order.erase key ++ [key]
          stats := { c.stats with hits := c.stats.hits + 1 } })

/-- `CacheManager._evict_lru`: pops the front of `access_order` and, if that
key is in the cache dict, deletes it and counts an eviction. -/
def CacheManager.evict_lru (c : CacheManager) : CacheManager :=
  match c.access_order with
  | [] => c
  | lru_key :: rest =>
    match lookupKey lru_key c.cache with
    | some _ =>
      { c with
          access_order := rest
          cache := eraseKey lru_key c.cache
          stats := { c.stats with evictions := c.stats.evictions + 1 } }
    | none => { c with access_order := rest }

/-- `CacheManager.set`: evicts the LRU entry when at capacity and the key is
new, then stores the fresh entry and moves the key to the most-recent end of
`access_order`. -/
def CacheManager.set (c : CacheManager) (key : String) (data : Nat)
    (ttlArg : Option Int) (now : Int) : CacheManager :=
  let ttl := ttlArg.getD c.default_ttl
  let c1 :=
    if c.max_size ≤ c.cache.length ∧ lookupKey key c.cache = none then
      c.evict_lru
    else c
  { c1 with
      cache := setKey key ⟨data, now, ttl, 0, 0⟩ c1.cache
      access_order := removeIfPresent key c1.access_order ++ [key] }

/-- `CacheManager.delete`. -/
def CacheManager.delete (c : CacheManager) (key : String) : Bool × CacheManager :=
  match lookupKey key c.cache with
  | some _ =>
    (true,
     { c with
        cache := eraseKey key c.cache
        access_order := removeIfPresent key c.access_order })
  | none => (false, c)

/-- `CacheManager.clear`. -/
def CacheManager.clear (c : CacheManager) : CacheManager :=
  { c with cache := [], access_order := [] }

/-- `CacheManager.cleanup_expired`: collects the expired keys, removes each
from the dict and (when present) from `access_order`, and counts them. -/
def CacheManager.cleanup_expired (c : CacheManager) (now : Int) :
    Nat × CacheManager :=
  let expired_keys := (c.cache.filter (fun p => p.2.is_expired now)).map Prod.fst
  (expired_keys.length,
   { c with
      cache := expired_keys.foldl (fun m k => eraseKey k m) c.cache
      access_order := expired_keys.foldl (fun l k => removeIfPresent k l) c.access_order
      stats := { c.stats with
        expired_cleanups := c.stats.expired_cleanups + expired_keys.length } })

/-- The externally callable cache operations (used to characterise reachable
states). -/
inductive CacheOp where
  | get (key : String) (now : Int)
  | set (key : String) (data : Nat) (ttlArg : Option Int) (now : Int)
  | delete (key : String)
  | clear
  | cleanup (now : Int)
deriving DecidableEq, Repr

def applyOp (c : CacheManager) : CacheOp → CacheManager
  | .get k now => (c.get k now).2
  | .set k d ttlArg now => c.set k d ttlArg now
  | .delete k => (c.delete k).2
  | .clear => c.clear
  | .cleanup now => (c.cleanup_expired now).2

/-- A freshly constructed `CacheManager(max_size, default_ttl)`. -/
def initCache (ms : Nat) (ttl : Int) : CacheManager :=
  { max_size := ms
    default_ttl := ttl
    cache := []
    access_order := []
    stats := ⟨0, 0, 0, 0⟩ }

/-- A cache state reached from a fresh manager by a sequence of operations. -/
def runCache (ms : Nat) (ttl : Int) (ops : List CacheOp) : CacheManager :=
  ops.foldl applyOp (initCache ms ttl)

/-- Well-formedness: unique dict keys, duplicate-free recency list, the same
key set in both, and the (slack-for-max_size-zero) capacity bound. -/
def CacheWF (c : CacheManager) : Prop :=
  (keysOf c.cache).Nodup ∧
  c.access_order.Nodup ∧
  (∀ k ∈ keysOf c.cache, k ∈ c.access_order) ∧
  (∀ k ∈ c.access_order, k ∈ keysOf c.cache) ∧
  c.cache.length ≤ max 1 c.max_size

theorem lookupKey_eq_none_iff (k : String) (c : List (String × CacheEntry)) :
    lookupKey k c = none ↔ k ∉ keysOf c := by
  induction c with
  | nil => simp [lookupKey, keysOf]
  | cons p rest ih =>
    obtain ⟨k2, e⟩ := p
    by_cases h : k2 = k
    · subst h
      simp [lookupKey, keysOf]
    · simp [lookupKey, keysOf, h, ih, Ne.symm h]

theorem lookupKey_some_mem {k : String} {c : List (String × CacheEntry)}
    {e : CacheEntry} (h : lookupKey k c = some e) : k ∈ keysOf c := by
  by_contra hk
  rw [← lookupKey_eq_none_iff] at hk
  rw [h] at hk
  exact Option.noConfusion hk

theorem keysOf_eraseKey (k : String) (c : List (String × CacheEntry)) :
    keysOf (eraseKey k c) = (keysOf c).erase k := by
  induction c with
  | nil => simp [eraseKey, keysOf]
  | cons p rest ih =>
    obtain ⟨k2, e⟩ := p
    by_cases h : k2 = k
    · subst h
      simp [eraseKey, keysOf, List.erase_cons]
    · simp [eraseKey, keysOf, h, List.erase_cons]
      simpa [keysOf] using ih

theorem eraseKey_of_not_mem {k : String} {c : List (String × CacheEntry)}
    (h : k ∉ keysOf c) : eraseKey k c = c := by
  induction c with
  | nil => rfl
  | cons p rest ih =>
    obtain ⟨k2, e⟩ := p
    simp only [keysOf, List.map_cons, List.mem_cons] at h
    push_neg at h
    simp only [eraseKey, if_neg (Ne.symm h.1)]
    rw [ih h.2]

theorem keysOf_setKey_mem {k : String} {c : List (String × CacheEntry)}
    (h : k ∈ keysOf c) (e : CacheEntry) : keysOf (setKey k e c) = keysOf c := by
  induction c with
  | nil => simp [keysOf] at h
  | cons p rest ih =>
    obtain ⟨k2, e2⟩ := p
    by_cases h2 : k2 = k
    · simp [setKey, h2, keysOf]
    · simp only [keysOf, List.map_cons, List.mem_cons] at h
      rcases h with h | h
      · exact absurd h.symm h2
      · simp [setKey, h2, keysOf]
        simpa [keysOf] using ih h

theorem keysOf_setKey_not_mem {k : String} {c : List (String × CacheEntry)}
    (h : k ∉ keysOf c) (e : CacheEntry) :
    keysOf (setKey k e c) = keysOf c ++ [k] := by
  induction c with
  | nil => simp [setKey, keysOf]
  | cons p rest ih =>
    obtain ⟨k2, e2⟩ := p
    simp only [keysOf, List.map_cons, List.mem_cons] at h
    push_neg at h
    simp [setKey, Ne.symm h.1, keysOf]
    simpa [keysOf] using ih h.2

theorem length_setKey_mem {k : String} {c : List (String × CacheEntry)}
    (h : k ∈ keysOf c) (e : CacheEntry) : (setKey k e c).length = c.length := by
  have h1 := keysOf_setKey_mem h e
  have h2 : (keysOf (setKey k e c)).length = (keysOf c).length := by rw [h1]
  simpa [keysOf] using h2

theorem length_setKey_not_mem {k : String} {c : List (String × CacheEntry)}
    (h : k ∉ keysOf c) (e : CacheEntry) : (setKey k e c).length = c.length + 1 := by
  have h1 := keysOf_setKey_not_mem h e
  have h2 : (keysOf (setKey k e c)).length = (keysOf c ++ [k]).length := by rw [h1]
  simpa [keysOf] using h2

theorem length_eraseKey_le (k : String) (c : List (String × CacheEntry)) :
    (eraseKey k c).length ≤ c.length := by
  induction c with
  | nil => simp [eraseKey]
  | cons p rest ih =>
    obtain ⟨k2, e⟩ := p
    by_cases h : k2 = k
    · simp only [eraseKey, if_pos h, List.length_cons]
      exact Nat.le_succ _
    · simp only [eraseKey, if_neg h, List.length_cons]
      exact Nat.succ_le_succ ih

theorem length_eraseKey_mem {k : String} {c : List (String × CacheEntry)}
    (h : k ∈ keysOf c) : (eraseKey k c).length + 1 = c.length := by
  have h1 := keysOf_eraseKey k c
  have h2 : (keysOf (eraseKey k c)).length = ((keysOf c).erase k).length := by rw [h1]
  have h3 : ((keysOf c).erase k).length = (keysOf c).length - 1 :=
    List.length_erase_of_mem h
  have h4 : 1 ≤ (keysOf c).length := List.length_pos.mpr (by
    intro he
    rw [he] at h
    simp at h)
  simp only [keysOf, List.length_map] at h2 h3 h4 ⊢
  omega

theorem lookupKey_setKey_self (k : String) (e : CacheEntry)
    (c : List (String × CacheEntry)) : lookupKey k (setKey k e c) = some e := by
  induction c with
  | nil => simp [setKey, lookupKey]
  | cons p rest ih =>
    obtain ⟨k2, e2⟩ := p
    by_cases h : k2 = k
    · simp [setKey, lookupKey, h]
    · simp [setKey, lookupKey, h, ih]

theorem lookupKey_eraseKey_self {k : String} {c : List (String × CacheEntry)}
    (h : (keysOf c).Nodup) : lookupKey k (eraseKey k c) = none := by
  rw [lookupKey_eq_none_iff, keysOf_eraseKey]
  exact h.not_mem_erase

theorem cacheWF_get {c : CacheManager} (h : CacheWF c) (key : String) (now : Int) :
    CacheWF (c.get key now).2 := by
  obtain ⟨h1, h2, h3, h4, h5⟩ := h
  cases hk : lookupKey key c.cache with
  | none =>
    simp only [CacheManager.get, hk]
    exact ⟨h1, h2, h3, h4, h5⟩
  | some entry =>
    by_cases hexp : entry.is_expired now = true
    · simp only [CacheManager.get, hk, hexp, if_true]
      refine ⟨?_, ?_, ?_, ?_, ?_⟩
      · rw [keysOf_eraseKey]
        exact h1.erase key
      · exact h2.erase key
      · intro k hkk
        rw [keysOf_eraseKey, h1.mem_erase_iff] at hkk
        exact (List.mem_erase_of_ne hkk.1).mpr (h3 k hkk.2)
      · intro k hkk
        rw [h2.mem_erase_iff] at hkk
        rw [keysOf_eraseKey, h1.mem_erase_iff]
        exact ⟨hkk.1, h4 k hkk.2⟩
      · exact le_trans (length_eraseKey_le key c.cache) h5
    · simp only [CacheManager.get, hk]
      rw [if_neg hexp]
      have hmem : key ∈ keysOf c.cache := lookupKey_some_mem hk
      refine ⟨?_, ?_, ?_, ?_, ?_⟩
      · rw [keysOf_setKey_mem hmem]
        exact h1
      · refine (h2.erase key).append (List.nodup_singleton key) ?_
        intro a ha hb
        simp only [List.mem_singleton] at hb
        subst hb
        exact h2.not_mem_erase ha
      · intro k hkk
        rw [keysOf_setKey_mem hmem] at hkk
        by_cases hkey : k = key
        · subst hkey
          exact List.mem_append_right _ (List.mem_singleton.mpr rfl)
        · exact List.mem_append_left _ ((List.mem_erase_of_ne hkey).mpr (h3 k hkk))
      · intro k hkk
        rw [keysOf_setKey_mem hmem]
        rcases List.mem_append.mp hkk with hkk | hkk
        · exact h4 k (List.erase_subset _ _ hkk)
        · simp only [List.mem_singleton] at hkk
          subst hkk
          exact hmem
      · rw [length_setKey_mem hmem]
        exact h5

theorem cacheWF_evict {c : CacheManager} (h : CacheWF c) : CacheWF c.evict_lru := by
  obtain ⟨h1, h2, h3, h4, h5⟩ := h
  cases horder : c.access_order with
  | nil =>
    simp only [CacheManager.evict_lru, horder]
    exact ⟨h1, h2, by simpa [horder] using h3, by simp [horder], h5⟩
  | cons lru rest =>
    have hlru : lru ∈ keysOf c.cache :=
      h4 lru (by rw [horder]; exact List.mem_cons_self _ _)
    have hrest : rest.Nodup ∧ lru ∉ rest := by
      rw [horder, List.nodup_cons] at h2
      exact ⟨h2.2, h2.1⟩
    cases hlk : lookupKey lru c.cache with
    | none =>
      exact absurd ((lookupKey_eq_none_iff lru c.cache).mp hlk) (by simp [hlru])
    | some e =>
      simp only [CacheManager.evict_lru, horder, hlk]
      refine ⟨?_, hrest.1, ?_, ?_, ?_⟩
      · rw [keysOf_eraseKey]
        exact h1.erase lru
      · intro k hkk
        rw [keysOf_eraseKey, h1.mem_erase_iff] at hkk
        have hko := h3 k hkk.2
        rw [horder] at hko
        rcases List.mem_cons.mp hko with rfl | hm
        · exact absurd rfl hkk.1
        · exact hm
      · intro k hkk
        have hko : k ∈ c.access_order := by
          rw [horder]
          exact List.mem_cons_of_mem _ hkk
        rw [keysOf_eraseKey, h1.mem_erase_iff]
        refine ⟨?_, h4 k hko⟩
        rintro rfl
        exact hrest.2 hkk
      · exact le_trans (length_eraseKey_le lru c.cache) h5

theorem evict_lru_cons {c : CacheManager} {lru : String} {rest : List String}
    (horder : c.access_order = lru :: rest) (hlru : lru ∈ keysOf c.cache) :
    c.evict_lru.cache = eraseKey lru c.cache ∧
    c.evict_lru.access_order = rest ∧
    c.evict_lru.max_size = c.max_size := by
  cases hl : lookupKey lru c.cache with
  | none =>
    exact absurd ((lookupKey_eq_none_iff lru c.cache).mp hl) (by simp [hlru])
  | some e =>
    simp [CacheManager.evict_lru, horder, hl]

theorem max_size_evict (c : CacheManager) : c.evict_lru.max_size = c.max_size := by
  cases horder : c.access_order with
  | nil => simp [CacheManager.evict_lru, horder]
  | cons lru rest =>
    cases hl : lookupKey lru c.cache with
    | none => simp [CacheManager.evict_lru, horder, hl]
    | some e => simp [CacheManager.evict_lru, horder, hl]

theorem wfcore_store {cache : List (String × CacheEntry)} {order : List String}
    (h1 : (keysOf cache).Nodup) (h2 : order.Nodup)
    (h3 : ∀ k ∈ keysOf cache, k ∈ order)
    (h4 : ∀ k ∈ order, k ∈ keysOf cache)
    (key : String) (e : CacheEntry) :
    (keysOf (setKey key e cache)).Nodup ∧
    (removeIfPresent key order ++ [key]).Nodup ∧
    (∀ k ∈ keysOf (setKey key e cache), k ∈ removeIfPresent key order ++ [key]) ∧
    (∀ k ∈ removeIfPresent key order ++ [key], k ∈ keysOf (setKey key e cache)) := by
  by_cases hmem : key ∈ keysOf cache
  · have hko : key ∈ order := h3 key hmem
    have hrem : removeIfPresent key order = order.erase key := by
      simp [removeIfPresent, hko]
    rw [hrem, keysOf_setKey_mem hmem]
    refine ⟨h1, ?_, ?_, ?_⟩
    · refine (h2.erase key).append (List.nodup_singleton key) ?_
      intro a ha hb
      simp only [List.mem_singleton] at hb
      subst hb
      exact h2.not_mem_erase ha
    · intro k hkk
      by_cases hkey : k = key
      · subst hkey
        exact List.mem_append_right _ (List.mem_singleton.mpr rfl)
      · exact List.mem_append_left _ ((List.mem_erase_of_ne hkey).mpr (h3 k hkk))
    · intro k hkk
      rcases List.mem_append.mp hkk with hkk | hkk
      · exact h4 k (List.erase_subset _ _ hkk)
      · simp only [List.mem_singleton] at hkk
        subst hkk
        exact hmem
  · have hko : key ∉ order := fun hko => hmem (h4 key hko)
    have hrem : removeIfPresent key order = order := by
      simp [removeIfPresent, hko]
    rw [hrem, keysOf_setKey_not_mem hmem]
    refine ⟨?_, ?_, ?_, ?_⟩
    · refine h1.append (List.nodup_singleton key) ?_
      intro a ha hb
      simp only [List.mem_singleton] at hb
      subst hb
      exact hmem ha
    · refine h2.append (List.nodup_singleton key) ?_
      intro a ha hb
      simp only [List.mem_singleton] at hb
      subst hb
      exact hko ha
    · intro k hkk
      rcases List.mem_append.mp hkk with hkk | hkk
      · exact List.mem_append_left _ (h3 k hkk)
      · exact List.mem_append_right _ hkk
    · intro k hkk
      rcases List.mem_append.mp hkk with hkk | hkk
      · exact List.mem_append_left _ (h4 k hkk)
      · exact List.mem_append_right _ hkk

theorem cacheWF_set {c : CacheManager} (h : CacheWF c) (key : String) (data : Nat)
    (ttlArg : Option Int) (now : Int) : CacheWF (c.set key data ttlArg now) := by
  obtain ⟨h1, h2, h3, h4, h5⟩ := h
  by_cases hcond : c.max_size ≤ c.cache.length ∧ lookupKey key c.cache = none
  · have hwf1 : CacheWF c.evict_lru := cacheWF_evict ⟨h1, h2, h3, h4, h5⟩
    obtain ⟨g1, g2, g3, g4, g5⟩ := hwf1
    have hkeyc : key ∉ keysOf c.cache := (lookupKey_eq_none_iff key c.cache).mp hcond.2
    obtain ⟨s1, s2, s3, s4⟩ :=
      wfcore_store g1 g2 g3 g4 key ⟨data, now, (ttlArg.getD c.default_ttl), 0, 0⟩
    simp only [CacheManager.set, if_pos hcond]
    refine ⟨s1, s2, s3, s4, ?_⟩
    rw [max_size_evict]
    cases horder : c.access_order with
    | nil =>
      have hcache : c.cache = [] := by
        cases hc : c.cache with
        | nil => rfl
        | cons p rest =>
          have : p.1 ∈ c.access_order := h3 p.1 (by simp [keysOf, hc])
          rw [horder] at this
          simp at this
      have hnoev : c.evict_lru = c := by
        simp [CacheManager.evict_lru, horder]
      rw [hnoev, hcache]
      simp [setKey]
    | cons lru rest =>
      have hlru : lru ∈ keysOf c.cache :=
        h4 lru (by rw [horder]; exact List.mem_cons_self _ _)
      obtain ⟨hc1, _, _⟩ := evict_lru_cons horder hlru
      have hkey1 : key ∉ keysOf c.evict_lru.cache := by
        rw [hc1, keysOf_eraseKey]
        intro hk
        exact hkeyc (List.erase_subset _ _ hk)
      rw [length_setKey_not_mem hkey1, hc1]
      have := length_eraseKey_mem hlru
      omega
  · simp only [CacheManager.set, if_neg hcond]
    obtain ⟨s1, s2, s3, s4⟩ :=
      wfcore_store h1 h2 h3 h4 key ⟨data, now, (ttlArg.getD c.default_ttl), 0, 0⟩
    refine ⟨s1, s2, s3, s4, ?_⟩
    by_cases hmem : key ∈ keysOf c.cache
    · rw [length_setKey_mem hmem]
      exact h5
    · have hnone : lookupKey key c.cache = none :=
        (lookupKey_eq_none_iff key c.cache).mpr hmem
      have hlen : ¬ c.max_size ≤ c.cache.length := by
        intro hle
        exact hcond ⟨hle, hnone⟩
      show (setKey key ⟨data, now, ttlArg.getD c.default_ttl, 0, 0⟩ c.cache).length ≤
        max 1 c.max_size
      rw [length_setKey_not_mem hmem]
      omega

theorem cacheWF_delete {c : CacheManager} (h : CacheWF c) (key : String) :
    CacheWF (c.delete key).2 := by
  obtain ⟨h1, h2, h3, h4, h5⟩ := h
  cases hk : lookupKey key c.cache with
  | none =>
    simp only [CacheManager.delete, hk]
    exact ⟨h1, h2, h3, h4, h5⟩
  | some e =>
    have hmem : key ∈ keysOf c.cache := lookupKey_some_mem hk
    have hko : key ∈ c.access_order := h3 key hmem
    simp only [CacheManager.delete, hk]
    have hrem : removeIfPresent key c.access_order = c.access_order.erase key := by
      simp [removeIfPresent, hko]
    rw [hrem]
    refine ⟨?_, h2.erase key, ?_, ?_, ?_⟩
    · rw [keysOf_eraseKey]
      exact h1.erase key
    · intro k hkk
      rw [keysOf_eraseKey, h1.mem_erase_iff] at hkk
      exact (List.mem_erase_of_ne hkk.1).mpr (h3 k hkk.2)
    · intro k hkk
      rw [h2.mem_erase_iff] at hkk
      rw [keysOf_eraseKey, h1.mem_erase_iff]
      exact ⟨hkk.1, h4 k hkk.2⟩
    · exact le_trans (length_eraseKey_le key c.cache) h5

theorem cacheWF_clear {c : CacheManager} (h : CacheWF c) : CacheWF c.clear := by
  refine ⟨?_, ?_, ?_, ?_, ?_⟩ <;>
    simp [CacheManager.clear, keysOf]

theorem wfcore_removeBoth (k : String) (cache : List (String × CacheEntry))
    (order : List String)
    (h1 : (keysOf cache).Nodup) (h2 : order.Nodup)
    (h3 : ∀ x ∈ keysOf cache, x ∈ order)
    (h4 : ∀ x ∈ order, x ∈ keysOf cache) :
    (keysOf (eraseKey k cache)).Nodup ∧
    (removeIfPresent k order).Nodup ∧
    (∀ x ∈ keysOf (eraseKey k cache), x ∈ removeIfPresent k order) ∧
    (∀ x ∈ removeIfPresent k order, x ∈ keysOf (eraseKey k cache)) ∧
    (eraseKey k cache).length ≤ cache.length := by
  by_cases hmem : k ∈ keysOf cache
  · have hko : k ∈ order := h3 k hmem
    have hrem : removeIfPresent k order = order.erase k := by
      simp [removeIfPresent, hko]
    rw [hrem, keysOf_eraseKey]
    refine ⟨h1.erase k, h2.erase k, ?_, ?_, length_eraseKey_le k cache⟩
    · intro x hx
      rw [h1.mem_erase_iff] at hx
      exact (List.mem_erase_of_ne hx.1).mpr (h3 x hx.2)
    · intro x hx
      rw [h2.mem_erase_iff] at hx
      rw [h1.mem_erase_iff]
      exact ⟨hx.1, h4 x hx.2⟩
  · have hko : k ∉ order := fun hko => hmem (h4 k hko)
    have hrem : removeIfPresent k order = order := by
      simp [removeIfPresent, hko]
    rw [hrem, eraseKey_of_not_mem hmem]
    exact ⟨h1, h2, h3, h4, le_refl _⟩

theorem wfcore_removeFold (ks : List String) (cache : List (String × CacheEntry))
    (order : List String)
    (h1 : (keysOf cache).Nodup) (h2 : order.Nodup)
    (h3 : ∀ x ∈ keysOf cache, x ∈ order)
    (h4 : ∀ x ∈ order, x ∈ keysOf cache) :
    (keysOf (ks.foldl (fun m k => eraseKey k m) cache)).Nodup ∧
    (ks.foldl (fun l k => removeIfPresent k l) order).Nodup ∧
    (∀ x ∈ keysOf (ks.foldl (fun m k => eraseKey k m) cache),
        x ∈ ks.foldl (fun l k => removeIfPresent k l) order) ∧
    (∀ x ∈ ks.foldl (fun l k => removeIfPresent k l) order,
        x ∈ keysOf (ks.foldl (fun m k => eraseKey k m) cache)) ∧
    (ks.foldl (fun m k => eraseKey k m) cache).length ≤ cache.length := by
  induction ks generalizing cache order with
  | nil => exact ⟨h1, h2, h3, h4, le_refl _⟩
  | cons k ks ih =>
    obtain ⟨g1, g2, g3, g4, g5⟩ := wfcore_removeBoth k cache order h1 h2 h3 h4
    obtain ⟨r1, r2, r3, r4, r5⟩ :=
      ih (eraseKey k cache) (removeIfPresent k order) g1 g2 g3 g4
    exact ⟨r1, r2, r3, r4, le_trans r5 g5⟩

theorem cacheWF_cleanup {c : CacheManager} (h : CacheWF c) (now : Int) :
    CacheWF (c.cleanup_expired now).2 := by
  obtain ⟨h1, h2, h3, h4, h5⟩ := h
  obtain ⟨r1, r2, r3, r4, r5⟩ :=
    wfcore_removeFold ((c.cache.filter (fun p => p.2.is_expired now)).map Prod.fst)
      c.cache c.access_order h1 h2 h3 h4
  exact ⟨r1, r2, r3, r4, le_trans r5 h5⟩

theorem cacheWF_applyOp {c : CacheManager} (h : CacheWF c) (op : CacheOp) :
    CacheWF (applyOp c op) := by
  cases op with
  | get k now => exact cacheWF_get h k now
  | set k d ttlArg now => exact cacheWF_set h k d ttlArg now
  | delete k => exact cacheWF_delete h k
  | clear => exact cacheWF_clear h
  | cleanup now => exact cacheWF_cleanup h now

theorem cacheWF_init (ms : Nat) (ttl : Int) : CacheWF (initCache ms ttl) := by
  refine ⟨?_, ?_, ?_, ?_, ?_⟩ <;>
    simp [initCache, keysOf]

theorem cacheWF_runCache (ms : Nat) (ttl : Int) (ops : List CacheOp) :
    CacheWF (runCache ms ttl ops) := by
  suffices h : ∀ (ops : List CacheOp) (c : CacheManager), CacheWF c →
      CacheWF (ops.foldl applyOp c) from
    h ops (initCache ms ttl) (cacheWF_init ms ttl)
  intro ops
  induction ops with
  | nil => intro c hc; exact hc
  | cons op rest ih =>
    intro c hc
    exact ih (applyOp c op) (cacheWF_applyOp hc op)

theorem max_size_applyOp (c : CacheManager) (op : CacheOp) :
    (applyOp c op).max_size = c.max_size := by
  cases op with
  | get k now =>
    simp only [applyOp, CacheManager.get]
    split
    · rfl
    · split <;> rfl
  | set k d ttlArg now =>
    simp only [applyOp, CacheManager.set]
    split
    · exact max_size_evict c
    · rfl
  | delete k =>
    simp only [applyOp, CacheManager.delete]
    cases hk : lookupKey k c.cache with
    | none => rfl
    | some e => rfl
  | clear => rfl
  | cleanup now => rfl

theorem max_size_runCache (ms : Nat) (ttl : Int) (ops : List CacheOp) :
    (runCache ms ttl ops).max_size = ms := by
  suffices h : ∀ (ops : List CacheOp) (c : CacheManager),
      (ops.foldl applyOp c).max_size = c.max_size from h ops (initCache ms ttl)
  intro ops
  induction ops with
  | nil => intro c; rfl
  | cons op rest ih =>
    intro c
    rw [List.foldl_cons, ih (applyOp c op), max_size_applyOp]

/-- C9: after every sequence of cache operations (get, set, delete, clear,
cleanup_expired, including the internal LRU eviction inside set), the key set
of the cache dict equals the key set of the `access_order` recency list, and
the recency list has no duplicates. -/
theorem c9_keys_sync (ms : Nat) (ttl : Int) (ops : List CacheOp) :
    (∀ k, k ∈ keysOf (runCache ms ttl ops).cache ↔
        k ∈ (runCache ms ttl ops).access_order) ∧
    (runCache ms ttl ops).access_order.Nodup := by
  obtain ⟨h1, h2, h3, h4, h5⟩ := cacheWF_runCache ms ttl ops
  exact ⟨fun k => ⟨h3 k, h4 k⟩, h2⟩

/-- C3 counterexample: a cache constructed with `max_size = 0` accepts one
`set` and then holds 1 > 0 entries, because `_evict_lru` has nothing to pop
from the empty `access_order`, so the capacity ceiling is exceeded. -/
theorem c3_counterexample :
    (runCache 0 3600 [.set "a" 1 none 0]).max_size = 0 ∧
    (runCache 0 3600 [.set "a" 1 none 0]).cache.length = 1 :=
  ⟨rfl, rfl⟩

/-- C3 (amended): provided `max_size ≥ 1`, the number of entries in every
reachable cache state never exceeds `max_size`; when `set` is called with a
new key while the cache is exactly full, the single evicted entry is the
least-recently-accessed one (the head of `access_order`, which both `get` and
`set` refresh to the most-recent end): the new key set is the old one minus
the LRU key plus the new key, at unchanged size.  The `maxSize = 2` scenario
set a, set b, get a, set c leaves exactly keys a and c, with b evicted. -/
theorem c3_capacity_lru (ms : Nat) (ttl : Int) (ops : List CacheOp)
    (hms : 1 ≤ ms) :
    (runCache ms ttl ops).cache.length ≤ ms ∧
    (∀ (c : CacheManager) (key : String) (data : Nat) (ttlArg : Option Int)
        (now : Int) (lru : String) (rest : List String),
      CacheWF c → c.cache.length = c.max_size → lookupKey key c.cache = none →
      c.access_order = lru :: rest →
      (c.set key data ttlArg now).cache.length = c.max_size ∧
      lookupKey lru (c.set key data ttlArg now).cache = none ∧
      keysOf (c.set key data ttlArg now).cache =
        ((keysOf c.cache).erase lru) ++ [key]) ∧
    (keysOf (runCache 2 3600
        [.set "a" 1 none 0, .set "b" 2 none 1, .get "a" 2,
          .set "c" 3 none 3]).cache = ["a", "c"] ∧
      lookupKey "b" (runCache 2 3600
        [.set "a" 1 none 0, .set "b" 2 none 1, .get "a" 2,
          .set "c" 3 none 3]).cache = none ∧
      (runCache 2 3600
        [.set "a" 1 none 0, .set "b" 2 none 1, .get "a" 2,
          .set "c" 3 none 3]).stats.evictions = 1) := by
  refine ⟨?_, ?_, by decide, by decide, by decide⟩
  · have h5 := (cacheWF_runCache ms ttl ops).2.2.2.2
    rw [max_size_runCache] at h5
    rwa [max_eq_right hms] at h5
  · intro c key data ttlArg now lru rest hwf hfull habs horder
    obtain ⟨h1, h2, h3, h4, h5⟩ := hwf
    have hlru : lru ∈ keysOf c.cache :=
      h4 lru (by rw [horder]; exact List.mem_cons_self _ _)
    have hkeyc : key ∉ keysOf c.cache := (lookupKey_eq_none_iff key c.cache).mp habs
    have hcond : c.max_size ≤ c.cache.length ∧ lookupKey key c.cache = none :=
      ⟨le_of_eq hfull.symm, habs⟩
    obtain ⟨hc1, _, _⟩ := evict_lru_cons horder hlru
    have hkey1 : key ∉ keysOf (eraseKey lru c.cache) := by
      rw [keysOf_eraseKey]
      intro hkk
      exact hkeyc (List.erase_subset _ _ hkk)
    have hne : lru ≠ key := by
      rintro rfl
      exact hkeyc hlru
    refine ⟨?_, ?_, ?_⟩
    · show (setKey key ⟨data, now, ttlArg.getD c.default_ttl, 0, 0⟩
          (if c.max_size ≤ c.cache.length ∧ lookupKey key c.cache = none then
            c.evict_lru else c).cache).length = c.max_size
      rw [if_pos hcond, hc1, length_setKey_not_mem hkey1]
      have := length_eraseKey_mem hlru
      omega
    · show lookupKey lru (setKey key ⟨data, now, ttlArg.getD c.default_ttl, 0, 0⟩
          (if c.max_size ≤ c.cache.length ∧ lookupKey key c.cache = none then
            c.evict_lru else c).cache) = none
      rw [if_pos hcond, hc1, lookupKey_eq_none_iff, keysOf_setKey_not_mem hkey1,
        keysOf_eraseKey]
      intro hmem
      rcases List.mem_append.mp hmem with hmem | hmem
      · exact h1.not_mem_erase hmem
      · simp only [List.mem_singleton] at hmem
        exact hne hmem
    · show keysOf (setKey key ⟨data, now, ttlArg.getD c.default_ttl, 0, 0⟩
          (if c.max_size ≤ c.cache.length ∧ lookupKey key c.cache = none then
            c.evict_lru else c).cache) = ((keysOf c.cache).erase lru) ++ [key]
      rw [if_pos hcond, hc1, keysOf_setKey_not_mem hkey1, keysOf_eraseKey]

theorem c3_witness :
    (runCache 2 3600 [.set "a" 1 none 0, .set "b" 2 none 1, .get "a" 2]).cache.length
      ≤ 2 ∧
    (CacheManager.set
        (runCache 2 3600 [.set "a" 1 none 0, .set "b" 2 none 1, .get "a" 2])
        "c" 3 none 3).cache.length
      = (runCache 2 3600 [.set "a" 1 none 0, .set "b" 2 none 1, .get "a" 2]).max_size :=
  ⟨(c3_capacity_lru 2 3600 [.set "a" 1 none 0, .set "b" 2 none 1, .get "a" 2]
      (by decide)).1,
    ((c3_capacity_lru 2 3600 [] (by decide)).2.1
      (runCache 2 3600 [.set "a" 1 none 0, .set "b" 2 none 1, .get "a" 2])
      "c" 3 none 3 "b" ["a"]
      (by unfold CacheWF; decide) (by decide) (by decide) (by decide)).1⟩

/-- C4: for a key bound to an entry `e` in a well-formed cache, if
`now - e.timestamp > e.ttl` then `get` returns `None`, removes the entry from
the dict and the recency list, and increments both `misses` and
`expired_cleanups`; otherwise `get` returns the stored value, increments
`hits` and the entry's `access_count` (also stamping `last_accessed`), and
moves the key to the most-recently-used end of the recency list. -/
theorem c4_get_spec (c : CacheManager) (key : String) (now : Int) (e : CacheEntry)
    (h1 : (keysOf c.cache).Nodup) (h2 : c.access_order.Nodup)
    (hk : lookupKey key c.cache = some e) :
    (e.is_expired now = true →
      (c.get key now).1 = none ∧
      lookupKey key (c.get key now).2.cache = none ∧
      key ∉ (c.get key now).2.access_order ∧
      (c.get key now).2.stats.misses = c.stats.misses + 1 ∧
      (c.get key now).2.stats.expired_cleanups = c.stats.expired_cleanups + 1) ∧
    (e.is_expired now = false →
      (c.get key now).1 = some e.data ∧
      (c.get key now).2.stats.hits = c.stats.hits + 1 ∧
      lookupKey key (c.get key now).2.cache =
        some { e with access_count := e.access_count + 1, last_accessed := now } ∧
      (c.get key now).2.access_order = c.access_order.erase key ++ [key]) := by
  constructor
  · intro hexp
    refine ⟨?_, ?_, ?_, ?_, ?_⟩
    · simp [CacheManager.get, hk, hexp]
    · simp only [CacheManager.get, hk, hexp, if_true]
      exact lookupKey_eraseKey_self h1
    · simp only [CacheManager.get, hk, hexp, if_true]
      exact h2.not_mem_erase
    · simp [CacheManager.get, hk, hexp]
    · simp [CacheManager.get, hk, hexp]
  · intro hexp
    have hcond : ¬ (e.is_expired now = true) := by simp [hexp]
    refine ⟨?_, ?_, ?_, ?_⟩
    · simp only [CacheManager.get, hk]
      rw [if_neg hcond]
    · simp only [CacheManager.get, hk]
      rw [if_neg hcond]
    · simp only [CacheManager.get, hk]
      rw [if_neg hcond]
      exact lookupKey_setKey_self key _ c.cache
    · simp only [CacheManager.get, hk]
      rw [if_neg hcond]

theorem c4_witness :
    (CacheManager.get
        ⟨10, 3600, [("k", ⟨5, 0, 10, 0, 0⟩)], ["k"], ⟨0, 0, 0, 0⟩⟩ "k" 100).1
      = none ∧
    (CacheManager.get
        ⟨10, 3600, [("k", ⟨5, 0, 10, 0, 0⟩)], ["k"], ⟨0, 0, 0, 0⟩⟩ "k" 5).1
      = some 5 :=
  ⟨((c4_get_spec ⟨10, 3600, [("k", ⟨5, 0, 10, 0, 0⟩)], ["k"], ⟨0, 0, 0, 0⟩⟩
        "k" 100 ⟨5, 0, 10, 0, 0⟩ (by decide) (by decide) rfl).1 (by decide)).1,
    ((c4_get_spec ⟨10, 3600, [("k", ⟨5, 0, 10, 0, 0⟩)], ["k"], ⟨0, 0, 0, 0⟩⟩
        "k" 5 ⟨5, 0, 10, 0, 0⟩ (by decide) (by decide) rfl).2 (by decide)).1⟩

end CacheModel

namespace AntiBot

/-- An HTTP response as observed by `AntiBotManager` (status code and body). -/
structure Response where
  status_code : Nat
  text : String
deriving DecidableEq, Repr

/-- The `blocked_indicators` list of `AntiBotManager._is_blocked`. -/
def blocked_indicators : List String :=
  ["access denied", "blocked", "captcha", "cloudflare", "rate limit",
   "too many requests", "robot", "bot detection", "suspicious activity",
   "please verify", "security check", "unusual traffic"]

/-- Whether `needle` occurs at the start of `hay` (character lists). -/
def matchesAt : List Char → List Char → Bool
  | [], _ => true
  | _ :: _, [] => false
  | a :: as, b :: bs => a == b && matchesAt as bs

/-- Python substring test `needle in hay` on character lists. -/
def containsSeq (needle : List Char) : List Char → Bool
  | [] => needle.isEmpty
  | b :: bs => matchesAt needle (b :: bs) || containsSeq needle bs

/-- `AntiBotManager._is_blocked`: status 403/429/503, or any blocking
indicator occurring in the lower-cased body. -/
def is_blocked (r : Response) : Bool :=
  if r.status_code = 403 ∨ r.status_code = 429 ∨ r.status_code = 503 then true
  else
    blocked_indicators.any fun ind =>
      containsSeq ind.toList r.text.toLower.toList

/-- What the environment does on one attempt of `make_request`: the
`session.get` call either raises a transport exception (`ProxyError` or any
other `RequestException`) or yields a response. -/
inductive Outcome where
  | exn
  | resp (r : Response)
deriving DecidableEq, Repr

/-- The `for attempt in range(max_attempts)` loop of
`AntiBotManager.make_request`, one list element per remaining attempt (the
head is the current attempt, so the list is a singleton exactly on the last
attempt).  A transport exception moves to the next attempt (the final raise
happens when attempts run out); a blocked response is retried unless this is
the last attempt, in which case the `return response` after the blocked
check returns it; a non-blocked response is returned at once.  Proxy marking,
header rotation and sleeps are environment effects without influence on the
returned value. -/
def requestLoop : List Outcome → Except String Response
  | [] => .error "Todas as tentativas falharam"
  | .exn :: rest => requestLoop rest
  | .resp r :: rest =>
    if is_blocked r then
      if rest.isEmpty then .ok r else requestLoop rest
    else .ok r

/-- `AntiBotManager.make_request` with its `max_attempts = 3`, driven by the
three attempt outcomes supplied by the environment. -/
def make_request (o1 o2 o3 : Outcome) : Except String Response :=
  requestLoop [o1, o2, o3]

/-- An attempt that does not produce an acceptable response: a transport
exception, or a response judged blocked. -/
def failsAttempt : Outcome → Bool
  | .exn => true
  | .resp r => is_blocked r

/-- `ProxyManager` state: the configured proxy endpoints (opaque connection
descriptors embedded as strings) and the failed-index set. -/
structure ProxyManager where
  proxies : List String
  current_proxy_index : Nat
  failed_proxies : Finset Nat
deriving DecidableEq

/-- Python `list.index` (first match), returning `none` where Python raises
`ValueError`. -/
def listIndexOf : List String → String → Option Nat
  | [], _ => none
  | x :: xs, a => if x = a then some 0 else (listIndexOf xs a).map (· + 1)

/-- The `available_proxies` comprehension of `ProxyManager.get_next_proxy`:
endpoints whose index is not in the failed set. -/
def availableOf (pm : ProxyManager) : List String :=
  (pm.proxies.enum.filter fun p => decide (p.1 ∉ pm.failed_proxies)).map Prod.snd

/-- `ProxyManager.get_next_proxy`: `None` when no endpoints are configured;
otherwise, if every endpoint is in the failed set, the failed set is cleared
and selection runs over all endpoints, else over the available ones.
`random.choice` is modelled by an oracle `pick` reduced modulo the candidate
count. -/
def get_next_proxy (pm : ProxyManager) (pick : Nat) :
    Option String × ProxyManager :=
  if pm.proxies = [] then (none, pm)
  else
    let cleared := availableOf pm = []
    let failed2 : Finset Nat := if cleared then ∅ else pm.failed_proxies
    let available2 := if cleared then pm.proxies else availableOf pm
    match available2.get? (pick % available2.length) with
    | some proxy =>
      (some proxy,
       { pm with
          failed_proxies := failed2
          current_proxy_index := (listIndexOf pm.proxies proxy).getD 0 })
    | none => (none, { pm with failed_proxies := failed2 })

/-- `ProxyManager.mark_proxy_failed`: looks up the endpoint's index and adds
it to the failed set; an endpoint that is not configured raises `ValueError`,
which is caught and ignored. -/
def mark_proxy_failed (pm : ProxyManager) (proxy : String) : ProxyManager :=
  match listIndexOf pm.proxies proxy with
  | some i => { pm with failed_proxies := insert i pm.failed_proxies }
  | none => pm

theorem listIndexOf_eq_none {l : List String} {a : String} (h : a ∉ l) :
    listIndexOf l a = none := by
  induction l with
  | nil => rfl
  | cons x xs ih =>
    simp only [List.mem_cons] at h
    push_neg at h
    simp only [listIndexOf, if_neg (Ne.symm h.1)]
    rw [ih h.2]
    rfl

theorem get_mod_some (l : List String) (h : l ≠ []) (pick : Nat) :
    ∃ p, l.get? (pick % l.length) = some p ∧ p ∈ l := by
  have hlen : 0 < l.length := List.length_pos.mpr h
  have hlt : pick % l.length < l.length := Nat.mod_lt _ hlen
  exact ⟨l.get ⟨pick % l.length, hlt⟩, List.get?_eq_get hlt, List.get_mem l _ hlt⟩

/-- C5 counterexample: when all three application-level attempts yield a
blocked response (HTTP 403), `make_request` does not raise: the blocked
check on the final attempt falls through to `return response`, handing the
blocked response back to the caller. -/
theorem c5_counterexample :
    is_blocked ⟨403, ""⟩ = true ∧
    make_request (.resp ⟨403, ""⟩) (.resp ⟨403, ""⟩) (.resp ⟨403, ""⟩)
      = .ok ⟨403, ""⟩ :=
  ⟨by decide, rfl⟩

/-- C5 (amended): when the first two attempts fail (transport exception or
blocked response), the outcome of the third attempt decides the result: a
transport exception on the third attempt makes `make_request` raise the
terminal request-failure error, while a response on the third attempt — even
a blocked one — is returned to the caller. -/
theorem c5_exhaustion (o1 o2 o3 : Outcome)
    (h1 : failsAttempt o1 = true) (h2 : failsAttempt o2 = true) :
    (o3 = .exn → make_request o1 o2 o3 = .error "Todas as tentativas falharam") ∧
    (∀ r, o3 = .resp r → make_request o1 o2 o3 = .ok r) := by
  have step1 : requestLoop [o1, o2, o3] = requestLoop [o2, o3] := by
    cases o1 with
    | exn => rfl
    | resp r =>
      simp only [failsAttempt] at h1
      simp [requestLoop, h1]
  have step2 : requestLoop [o2, o3] = requestLoop [o3] := by
    cases o2 with
    | exn => rfl
    | resp r =>
      simp only [failsAttempt] at h2
      simp [requestLoop, h2]
  constructor
  · rintro rfl
    rw [make_request, step1, step2]
    rfl
  · rintro r rfl
    rw [make_request, step1, step2]
    by_cases hb : is_blocked r = true
    · simp [requestLoop, hb]
    · simp [requestLoop, hb]

theorem c5_witness :
    failsAttempt (.resp ⟨429, ""⟩) = true ∧
    make_request .exn (.resp ⟨429, ""⟩) .exn
      = .error "Todas as tentativas falharam" :=
  ⟨by decide, (c5_exhaustion .exn (.resp ⟨429, ""⟩) .exn rfl (by decide)).1 rfl⟩

/-- C8: `get_next_proxy` returns `None` iff no proxy endpoints are
configured; when the failed set covers all endpoints (no available proxy),
the failed set is cleared in full and a proxy is selected among all
configured endpoints, so a valid proxy is always returned when at least one
endpoint exists; otherwise the failed set is kept and the selection is among
exactly the endpoints whose indices are not in the failed set. -/
theorem c8_get_next_proxy (pm : ProxyManager) (pick : Nat) :
    ((get_next_proxy pm pick).1 = none ↔ pm.proxies = []) ∧
    (pm.proxies ≠ [] → availableOf pm = [] →
      (get_next_proxy pm pick).2.failed_proxies = ∅ ∧
      ∃ p, (get_next_proxy pm pick).1 = some p ∧ p ∈ pm.proxies) ∧
    (pm.proxies ≠ [] → availableOf pm ≠ [] →
      (get_next_proxy pm pick).2.failed_proxies = pm.failed_proxies ∧
      ∃ p, (get_next_proxy pm pick).1 = some p ∧ p ∈ availableOf pm) := by
  by_cases hp : pm.proxies = []
  · exact ⟨by simp [get_next_proxy, hp], fun h => absurd hp h, fun h => absurd hp h⟩
  · by_cases hav : availableOf pm = []
    · obtain ⟨p, hg, hmem⟩ := get_mod_some pm.proxies hp pick
      have hrun : get_next_proxy pm pick =
          (some p, { pm with
            failed_proxies := ∅
            current_proxy_index := (listIndexOf pm.proxies p).getD 0 }) := by
        rw [List.get?_eq_getElem?] at hg
        simp [get_next_proxy, hp, hav, hg]
      refine ⟨?_, ?_, ?_⟩
      · rw [hrun]
        simp [hp]
      · exact fun _ _ => ⟨by rw [hrun], p, by rw [hrun], hmem⟩
      · exact fun _ h => absurd hav h
    · obtain ⟨p, hg, hmem⟩ := get_mod_some (availableOf pm) hav pick
      have hrun : get_next_proxy pm pick =
          (some p, { pm with
            failed_proxies := pm.failed_proxies
            current_proxy_index := (listIndexOf pm.proxies p).getD 0 }) := by
        rw [List.get?_eq_getElem?] at hg
        simp [get_next_proxy, hp, hav, hg]
      refine ⟨?_, ?_, ?_⟩
      · rw [hrun]
        simp [hp]
      · exact fun _ h => absurd h hav
      · exact fun _ _ => ⟨by rw [hrun], p, by rw [hrun], hmem⟩

theorem c8_witness :
    ¬ (["p0", "p1"] : List String) = [] ∧
    availableOf ⟨["p0", "p1"], 0, {0, 1}⟩ = [] ∧
    (get_next_proxy ⟨["p0", "p1"], 0, {0, 1}⟩ 0).2.failed_proxies = ∅ := by
  refine ⟨by decide, by decide, ?_⟩
  exact ((c8_get_next_proxy ⟨["p0", "p1"], 0, {0, 1}⟩ 0).2.1
    (by decide) (by decide)).1

/-- C10: `mark_proxy_failed` with a proxy that is not among the configured
endpoints never raises (the `ValueError` is caught) and leaves the whole
manager state unchanged; marking the same endpoint twice yields the same
state — in particular the same failed set — as marking it once. -/
theorem c10_mark_proxy_failed (pm pm2 : ProxyManager) (proxy q : String)
    (h : proxy ∉ pm.proxies) :
    mark_proxy_failed pm proxy = pm ∧
    mark_proxy_failed (mark_proxy_failed pm2 q) q = mark_proxy_failed pm2 q := by
  constructor
  · simp [mark_proxy_failed, listIndexOf_eq_none h]
  · cases hq : listIndexOf pm2.proxies q with
    | none => simp [mark_proxy_failed, hq]
    | some i => simp [mark_proxy_failed, hq, Finset.insert_idem]

theorem c10_witness :
    mark_proxy_failed ⟨["a"], 0, ∅⟩ "x" = ⟨["a"], 0, ∅⟩ ∧
    mark_proxy_failed (mark_proxy_failed ⟨["a"], 0, ∅⟩ "a") "a"
      = mark_proxy_failed ⟨["a"], 0, ∅⟩ "a" :=
  c10_mark_proxy_failed ⟨["a"], 0, ∅⟩ ⟨["a"], 0, ∅⟩ "x" "a" (by decide)

end AntiBot
